import Mathlib

/-!
Verification of the bug-graph analyzer (`src/main.rs`) against its
natural-language specification.

The development shallowly embeds the program's core:
construction of the in-memory bug graph from flat records (`BugList.new`),
the recursive reachability test (`blocks_wr_projects`), the recursive
project-attribution pass (`block_project_bugs`), the classification loop of
`main` (`classifyBugs`), the project-collection loop of `main`
(`collectProjects`), and the final sort of project summaries
(`sortBySeverity`).

Rust `i32` ids are modelled as `Int` (ids are only compared for equality and
printed, never involved in arithmetic).  `HashMap` is modelled as an
association list with overwriting insert (`mapGet` / `mapInsert`); loops over
a map take the map's entry list, whose order is arbitrary, so theorems
quantify over it.  Rust panics (`unwrap`, `assert!`) are modelled as
`Except` errors.  The two recursive traversals in the source are not
structurally terminating (the graph may be cyclic), so they are embedded
fuel-indexed: a result `none` means the recursion has not finished within
the given depth, and the source function diverges on an input exactly when
the embedding returns `none` at that input for every fuel.
-/

namespace FetchBugs

/-- Bug ids (`struct BugId(i32)` in the source). -/
abbrev BugId := Int

/-- A raw record of the fetched response (`struct BugResponse`).  The source
field `alias` is spelled `alias?` here because `alias` is a Lean keyword. -/
structure BugResponse where
  id : Int
  cf_rank : Option String
  alias? : Option String
  summary : String
  blocks : List Int
deriving DecidableEq

/-- An issue held by the graph (`struct Bug`). -/
structure Bug where
  summary : String
  blocks : List BugId
  rank : Int
deriving DecidableEq

/-- The issue graph (`struct BugList`): issues keyed by id plus the root id. -/
structure BugList where
  bugs : List (BugId × Bug)
  root_project_id : BugId
deriving DecidableEq

/-- An unreachable-issue report entry (`struct BugInfo`). -/
structure BugInfo where
  id : Int
  url : String
  summary : String
deriving DecidableEq

/-- A project summary (`struct ProjectInfo`).  `bug_count` is a Rust `usize`,
modelled as `Nat`. -/
structure ProjectInfo where
  id : Int
  severity : Int
  url : String
  summary : String
  bug_count : Nat
deriving DecidableEq

/-- Lookup in the association-list model of `HashMap` (`HashMap::get`). -/
def mapGet {α : Type} : List (BugId × α) → BugId → Option α
  | [], _ => none
  | (k', v) :: rest, k => if k = k' then some v else mapGet rest k

/-- Overwriting insert in the association-list model of `HashMap`
(`HashMap::insert`; a duplicate key keeps the new value). -/
def mapInsert {α : Type} : List (BugId × α) → BugId → α → List (BugId × α)
  | [], k, v => [(k, v)]
  | (k', v') :: rest, k, v =>
    if k = k' then (k, v) :: rest else (k', v') :: mapInsert rest k v

/-- Model of `str::parse::<i32>`: an optional sign followed by one or more
decimal digits, rejecting values outside the `i32` range. -/
def parseI32 (s : String) : Option Int :=
  let signDigits : Int × List Char :=
    match s.data with
    | '+' :: rest => (1, rest)
    | '-' :: rest => (-1, rest)
    | cs => (1, cs)
  let digits := signDigits.2
  if digits.isEmpty then none
  else if digits.all Char.isDigit then
    let n : Nat := digits.foldl (fun acc c => acc * 10 + (c.toNat - 48)) 0
    let v : Int := signDigits.1 * n
    if -2147483648 ≤ v ∧ v ≤ 2147483647 then some v else none
  else none

/-- The rank of a record: `bug.cf_rank.map_or(-1, |r| r.parse::<i32>().unwrap())`,
with `none` standing for the parse failure that panics in the source. -/
def rankOf (r : BugResponse) : Option Int :=
  match r.cf_rank with
  | none => some (-1)
  | some s => parseI32 s

/-- The root-alias test of `BugList::new`:
`if let Some("wr-projects") = bug.alias.as_ref().map(|s| s.as_str())`. -/
def isRoot (r : BugResponse) : Bool :=
  r.alias? == some "wr-projects"

/-- How many records of the input carry the root alias. -/
def countRoot (rs : List BugResponse) : Nat :=
  (rs.filter isRoot).length

/-- The panics of `BugList::new`: `assert!(root_project_id.is_none())` on a
second root-alias record, the rank-parse `unwrap`, and the final
`root_project_id.unwrap()`. -/
inductive BuildError where
  | duplicateRoot
  | invalidRank
  | missingRoot
deriving DecidableEq

/-- The `Bug` value inserted for a record once its rank is known. -/
def mkBug (r : BugResponse) (rank : Int) : Bug :=
  { summary := r.summary, blocks := r.blocks.map (fun i => (i : BugId)), rank := rank }

/-- The loop body of `BugList::new` over the remaining records, carrying the
map built so far and the root id found so far.  Within one record the
duplicate-root assertion fires before the rank parse, as in the source; the
missing-root `unwrap` fires after the last record. -/
def newAux : List BugResponse → List (BugId × Bug) → Option BugId →
    Except BuildError BugList
  | [], _, none => .error .missingRoot
  | [], bugs, some root => .ok ⟨bugs, root⟩
  | r :: rest, bugs, root? =>
    if isRoot r then
      match root? with
      | some _ => .error .duplicateRoot
      | none =>
        match rankOf r with
        | none => .error .invalidRank
        | some rk => newAux rest (mapInsert bugs r.id (mkBug r rk)) (some r.id)
    else
      match rankOf r with
      | none => .error .invalidRank
      | some rk => newAux rest (mapInsert bugs r.id (mkBug r rk)) root?

/-- Graph construction, `BugList::new`. -/
def BugList.new (rs : List BugResponse) : Except BuildError BugList :=
  newAux rs [] none

/-- Fuel-indexed embedding of `BugList::blocks_wr_projects`, applied to a
work list of pending ids: the head id is tested against the root, then its
bug (if present) is expanded depth-first before the rest of the list, exactly
as the source's recursion with its short-circuiting `for` loop.  `none`
means the recursion did not finish within `fuel` steps; the source diverges
at an input exactly when every fuel returns `none` there. -/
def blocksList : Nat → BugList → List BugId → Option Bool
  | 0, _, _ => none
  | _ + 1, _, [] => some false
  | fuel + 1, g, id :: rest =>
    if id = g.root_project_id then some true
    else
      match mapGet g.bugs id with
      | none => blocksList fuel g rest
      | some bug =>
        match blocksList fuel g bug.blocks with
        | none => none
        | some true => some true
        | some false => blocksList fuel g rest

/-- The reachability test `BugList::blocks_wr_projects` on one id. -/
def blocks_wr_projects (fuel : Nat) (g : BugList) (id : BugId) : Option Bool :=
  blocksList fuel g [id]

/-- Increment a project's `bug_count` when the id keys the project map
(`if let Some(project) = project_bug_info.get_mut(blocker_id)`). -/
def incrProject : List (BugId × ProjectInfo) → BugId → List (BugId × ProjectInfo)
  | [], _ => []
  | (k, pi) :: rest, b =>
    if b = k then (k, { pi with bug_count := pi.bug_count + 1 }) :: rest
    else (k, pi) :: incrProject rest b

/-- Fuel-indexed embedding of the loop body of `block_project_bugs`: for each
blocker id in the work list, bump its project counter if it is a project,
then expand its own blockers depth-first before the rest, exactly as the
source's recursion.  `none` again means fuel ran out. -/
def bpbList : Nat → BugList → List BugId → List (BugId × ProjectInfo) →
    Option (List (BugId × ProjectInfo))
  | 0, _, _, _ => none
  | _ + 1, _, [], pm => some pm
  | fuel + 1, g, b :: rest, pm =>
    let pm1 := incrProject pm b
    match mapGet g.bugs b with
    | none => bpbList fuel g rest pm1
    | some bug =>
      match bpbList fuel g bug.blocks pm1 with
      | none => none
      | some pm2 => bpbList fuel g rest pm2

/-- The project-attribution pass `block_project_bugs`, started at one id. -/
def block_project_bugs (fuel : Nat) (g : BugList) (id : BugId)
    (pm : List (BugId × ProjectInfo)) : Option (List (BugId × ProjectInfo)) :=
  match mapGet g.bugs id with
  | none => some pm
  | some bug => bpbList fuel g bug.blocks pm

/-- The detail-page URL of an issue
(`format!("https://bugzilla.mozilla.org/show_bug.cgi?id={}", id.0)`). -/
def bugUrl (id : Int) : String :=
  "https://bugzilla.mozilla.org/show_bug.cgi?id=" ++ toString id

/-- The `BugInfo` pushed for an unreachable issue. -/
def mkBugInfo (id : BugId) (bug : Bug) : BugInfo :=
  { id := id, url := bugUrl id, summary := bug.summary }

/-- The classification loop of `main` over the graph's entries: each issue is
tested with `blocks_wr_projects`; a reachable issue's id is fed to
`block_project_bugs` (collected in the first list, in invocation order) and
an unreachable issue is pushed onto `unreachable_bug_info` (the second
list).  `none` when some reachability test runs out of fuel. -/
def classifyBugs (fuel : Nat) (g : BugList) :
    List (BugId × Bug) → Option (List BugId × List BugInfo)
  | [] => some ([], [])
  | (id, bug) :: rest =>
    match blocks_wr_projects fuel g id with
    | none => none
    | some true =>
      match classifyBugs fuel g rest with
      | none => none
      | some (p, u) => some (id :: p, u)
    | some false =>
      match classifyBugs fuel g rest with
      | none => none
      | some (p, u) => some (p, mkBugInfo id bug :: u)

/-- Substring search over character lists, modelling Rust's
`str::contains(pattern)`. -/
def containsAux (pat : List Char) : List Char → Bool
  | [] => pat.isPrefixOf []
  | c :: rest => pat.isPrefixOf (c :: rest) || containsAux pat rest

/-- Model of `bug.summary.contains("[project]")`-style substring tests. -/
def strContains (s pat : String) : Bool :=
  containsAux pat.data s.data

/-- Model of `str::strip_prefix`: the remainder after the pattern when the
pattern leads the string, `none` otherwise. -/
def stripLeading (pat s : String) : Option String :=
  if pat.data.isPrefixOf s.data then some ⟨s.data.drop pat.data.length⟩ else none

/-- The `unwrap` panic of `main`'s project-collection loop:
`bug.summary.strip_prefix("[meta] [project] ").unwrap()` on a summary that
contains the tag but lacks the exact prefix. -/
inductive CollectError where
  | stripFailed
deriving DecidableEq

/-- The `ProjectInfo` stored for a project issue. -/
def mkProjectInfo (id : BugId) (bug : Bug) (stripped : String) : ProjectInfo :=
  { id := id, severity := bug.rank, url := bugUrl id, summary := stripped,
    bug_count := 0 }

/-- The project-collection loop of `main` over the graph's entries: an entry
whose summary contains `"[project]"` must carry the exact prefix
`"[meta] [project] "` (otherwise the source panics, modelled as an error)
and is stored with the prefix stripped and `bug_count` zero. -/
def collectProjects : List (BugId × Bug) →
    Except CollectError (List (BugId × ProjectInfo))
  | [] => .ok []
  | (id, bug) :: rest =>
    if strContains bug.summary "[project]" then
      match stripLeading "[meta] [project] " bug.summary with
      | none => .error .stripFailed
      | some stripped =>
        match collectProjects rest with
        | .error e => .error e
        | .ok l => .ok ((id, mkProjectInfo id bug stripped) :: l)
    else collectProjects rest

/-- Stable insertion into a severity-sorted list: the new element goes before
the first element of strictly greater severity (so after existing equals, as
a stable sort places it). -/
def insertBySeverity (p : ProjectInfo) : List ProjectInfo → List ProjectInfo
  | [] => [p]
  | q :: rest =>
    if q.severity < p.severity then q :: insertBySeverity p rest
    else p :: q :: rest

/-- Model of `project_bug_list.sort_by_key(|p| p.severity)`: a stable sort
ascending by `severity`. -/
def sortBySeverity : List ProjectInfo → List ProjectInfo
  | [] => []
  | p :: rest => insertBySeverity p (sortBySeverity rest)

/-- The denotation the reachability recursion computes whenever it
terminates: some chain of `blocks` edges leads from the id to the root. -/
inductive Reaches (g : BugList) : BugId → Prop where
  | root : Reaches g g.root_project_id
  | step {id t : BugId} {bug : Bug} : mapGet g.bugs id = some bug →
      t ∈ bug.blocks → Reaches g t → Reaches g id

/-- Two graphs that differ only in the order of each issue's `blocks` edge
list: same root, same issue ids, and for each id the same summary and rank
with permuted blocks. -/
def EdgePerm (g1 g2 : BugList) : Prop :=
  g1.root_project_id = g2.root_project_id ∧
  (∀ id, mapGet g1.bugs id = none ↔ mapGet g2.bugs id = none) ∧
  (∀ id b1 b2, mapGet g1.bugs id = some b1 → mapGet g2.bugs id = some b2 →
    b1.summary = b2.summary ∧ b1.rank = b2.rank ∧ b1.blocks.Perm b2.blocks)

/-- The recursion at `id` finds no answer at any depth: the source function
loops forever on this input. -/
def blocksDiverges (g : BugList) (id : BugId) : Prop :=
  ∀ fuel, blocks_wr_projects fuel g id = none

/-- Fixture for the cycle policy: issues 1 and 2 block each other, the root
(3) is not part of the cycle. -/
def twoCycleGraph : BugList :=
  { bugs := [(1, ⟨"a", [2], -1⟩), (2, ⟨"b", [1], -1⟩), (3, ⟨"root", [], -1⟩)],
    root_project_id := 3 }

/-- Fixture for the double-count guard: issue 1 blocks both 2 and 3, and both
block the project issue 4. -/
def diamondGraph : BugList :=
  { bugs := [(1, ⟨"A", [2, 3], -1⟩), (2, ⟨"B", [4], -1⟩), (3, ⟨"C", [4], -1⟩),
             (4, ⟨"[meta] [project] P", [], 5⟩)],
    root_project_id := 0 }

/-- The project map of `diamondGraph` before propagation: issue 4 is its only
project, with `bug_count` zero. -/
def diamondProjects : List (BugId × ProjectInfo) :=
  [(4, mkProjectInfo 4 ⟨"[meta] [project] P", [], 5⟩ "P")]

/-- The spec's scenario fixture: root is 1; 2 blocks 1; 3 blocks the missing
issue 99; 4 blocks 2. -/
def scenarioGraph : BugList :=
  { bugs := [(1, ⟨"r", [], -1⟩), (2, ⟨"s", [1], -1⟩), (3, ⟨"t", [99], -1⟩),
             (4, ⟨"u", [2], -1⟩)],
    root_project_id := 1 }

/-- Issue 1's edges reach the root 0 first and a self-looping issue 2
second. -/
def permGraphA : BugList :=
  { bugs := [(1, ⟨"a", [0, 2], -1⟩), (2, ⟨"b", [2], -1⟩)], root_project_id := 0 }

/-- The same graph as `permGraphA` with issue 1's edge list reversed: the
self-loop is explored before the root edge. -/
def permGraphB : BugList :=
  { bugs := [(1, ⟨"a", [2, 0], -1⟩), (2, ⟨"b", [2], -1⟩)], root_project_id := 0 }

/-- A graph with no issues at all. -/
def emptyGraph : BugList :=
  { bugs := [], root_project_id := 0 }

/-- One record carrying the root alias whose rank field does not parse. -/
def oneRootBadRank : List BugResponse :=
  [⟨1, some "x", some "wr-projects", "", []⟩]

/-- A record without the root alias whose rank field does not parse. -/
def badRankRecords : List BugResponse :=
  [⟨1, some "zz", none, "", []⟩]

/-- A well-formed input: the root record (rank absent) and one ranked
record. -/
def goodRecords : List BugResponse :=
  [⟨10, none, some "wr-projects", "root", []⟩, ⟨11, some "5", none, "other", [10]⟩]

/-- An entry whose summary contains the project tag without the exact
`"[meta] [project] "` prefix. -/
def strayTagEntries : List (BugId × Bug) :=
  [(1, ⟨"[project] Foo", [], -1⟩)]

/-- Projects with ranks 3, -1 and 5, in that order. -/
def rankedProjects : List ProjectInfo :=
  [⟨1, 3, "", "", 0⟩, ⟨2, -1, "", "", 0⟩, ⟨3, 5, "", "", 0⟩]

lemma blocksList_root_cons (g : BugList) (fuel : Nat) (rest : List BugId) :
    blocksList (fuel + 1) g (g.root_project_id :: rest) = some true := by
  simp [blocksList]

lemma twoCycle_none : ∀ fuel,
    blocksList fuel twoCycleGraph [1] = none ∧
    blocksList fuel twoCycleGraph [2] = none := by
  intro fuel
  induction fuel with
  | zero => exact ⟨rfl, rfl⟩
  | succ f ih =>
    obtain ⟨ih1, ih2⟩ := ih
    simp only [twoCycleGraph] at ih1 ih2
    constructor
    · show blocksList (f + 1) twoCycleGraph [1] = none
      simp [blocksList, twoCycleGraph, mapGet, ih2]
    · show blocksList (f + 1) twoCycleGraph [2] = none
      simp [blocksList, twoCycleGraph, mapGet, ih1]

/-- C1: the reachability test as written carries no visited set, so on a
2-cycle that does not contain the root the recursion started at an issue of
the cycle never finishes: at every recursion depth the embedding is still
running (`none`), so the source function does not terminate there, contrary
to the claimed guaranteed termination. -/
theorem blocks_wr_projects_diverges_on_two_cycle :
    ∀ fuel, blocks_wr_projects fuel twoCycleGraph 1 = none :=
  fun fuel => (twoCycle_none fuel).1

/-- C4: applied to the graph's own root id, the reachability test returns
true at any positive recursion depth — the base case `id == root_id` fires
before any edge is examined. -/
theorem blocks_wr_projects_root_true (g : BugList) (fuel : Nat) :
    blocks_wr_projects (fuel + 1) g g.root_project_id = some true :=
  blocksList_root_cons g fuel []

/-- C5: an id that is not the root and is absent from the issue map is a
terminal dead end: the test returns false (at any sufficient depth) and no
error path exists in this branch of the source. -/
theorem blocks_wr_projects_missing_id_false (g : BugList) (id : BugId)
    (hroot : id ≠ g.root_project_id) (hmiss : mapGet g.bugs id = none)
    (fuel : Nat) :
    blocks_wr_projects (fuel + 2) g id = some false := by
  show blocksList (fuel + 2) g [id] = some false
  simp [blocksList, hroot, hmiss]

/-- Witness for C5 on the empty graph and the absent id 1. -/
theorem blocks_missing_witness :
    (1 : BugId) ≠ emptyGraph.root_project_id ∧
    mapGet emptyGraph.bugs 1 = none ∧
    blocks_wr_projects 2 emptyGraph 1 = some false :=
  ⟨by decide, rfl, blocks_wr_projects_missing_id_false emptyGraph 1 (by decide) rfl 0⟩

/-- C2: the propagation pass keeps no per-call visited set, so in the
diamond graph (1 blocks 2 and 3; 2 and 3 both block the project 4) one call
started at issue 1 increments project 4's `bug_count` once per path — it
ends at 2, not at the claimed 1. -/
theorem block_project_bugs_double_counts_diamond :
    Option.bind (block_project_bugs 10 diamondGraph 1 diamondProjects)
      (fun pm => (mapGet pm 4).map (fun p => p.bug_count)) = some 2 := rfl

lemma mem_insertBySeverity {p a : ProjectInfo} {l : List ProjectInfo} :
    a ∈ insertBySeverity p l ↔ a = p ∨ a ∈ l := by
  induction l with
  | nil => simp [insertBySeverity]
  | cons q rest ih =>
    by_cases h : q.severity < p.severity
    · simp only [insertBySeverity, if_pos h, List.mem_cons, ih]
      tauto
    · simp only [insertBySeverity, if_neg h, List.mem_cons]

lemma perm_insertBySeverity (p : ProjectInfo) (l : List ProjectInfo) :
    (insertBySeverity p l).Perm (p :: l) := by
  induction l with
  | nil => exact List.Perm.refl [p]
  | cons q rest ih =>
    by_cases h : q.severity < p.severity
    · simp only [insertBySeverity, if_pos h]
      exact (ih.cons q).trans (List.Perm.swap p q rest)
    · simp only [insertBySeverity, if_neg h]
      exact List.Perm.refl _

lemma sorted_insertBySeverity {p : ProjectInfo} {l : List ProjectInfo}
    (h : List.Pairwise (fun a b : ProjectInfo => a.severity ≤ b.severity) l) :
    List.Pairwise (fun a b : ProjectInfo => a.severity ≤ b.severity)
      (insertBySeverity p l) := by
  induction l with
  | nil => simp [insertBySeverity]
  | cons q rest ih =>
    obtain ⟨hq, hrest⟩ := List.pairwise_cons.mp h
    by_cases hlt : q.severity < p.severity
    · simp only [insertBySeverity, if_pos hlt]
      refine List.pairwise_cons.mpr ⟨?_, ih hrest⟩
      intro a ha
      rcases mem_insertBySeverity.mp ha with rfl | hmem
      · exact le_of_lt hlt
      · exact hq a hmem
    · simp only [insertBySeverity, if_neg hlt]
      refine List.pairwise_cons.mpr ⟨?_, h⟩
      intro a ha
      rcases List.mem_cons.mp ha with rfl | hmem
      · exact not_lt.mp hlt
      · exact le_trans (not_lt.mp hlt) (hq a hmem)

/-- C8: the final project list is sorted ascending by severity (so the -1
sentinel sorts before all non-negative ranks), the sort is a permutation of
its input, and on projects ranked 3, -1, 5 the sorted ranks are -1, 3, 5. -/
theorem sortBySeverity_sorted_and_example :
    (∀ l, List.Pairwise (fun a b : ProjectInfo => a.severity ≤ b.severity)
        (sortBySeverity l) ∧ (sortBySeverity l).Perm l) ∧
    (sortBySeverity rankedProjects).map (fun p => p.severity) = [-1, 3, 5] := by
  constructor
  · intro l
    induction l with
    | nil => exact ⟨List.Pairwise.nil, List.Perm.refl []⟩
    | cons p rest ih =>
      exact ⟨sorted_insertBySeverity ih.1,
        (perm_insertBySeverity p _).trans (ih.2.cons p)⟩
  · rfl


lemma isPrefixOf_append : ∀ (p s : List Char), p.isPrefixOf s = true →
    s = p ++ s.drop p.length := by
  intro p
  induction p with
  | nil =>
    intro s _
    simp
  | cons a p ih =>
    intro s h
    cases s with
    | nil => simp [List.isPrefixOf] at h
    | cons b s2 =>
      rw [List.isPrefixOf] at h
      simp only [Bool.and_eq_true, beq_iff_eq] at h
      obtain ⟨rfl, h2⟩ := h
      have hs2 := ih s2 h2
      simp only [List.cons_append, List.length_cons, List.drop_succ_cons]
      rw [← hs2]

lemma stripLeading_eq {pat s r : String} (h : stripLeading pat s = some r) :
    s.data = pat.data ++ r.data := by
  unfold stripLeading at h
  split at h
  · next hp =>
    injection h with h2
    subst h2
    exact isPrefixOf_append pat.data s.data hp
  · exact absurd h (by simp)

/-- C10: an entry whose summary contains the substring "[project]" but does
not start with the exact prefix "[meta] [project] " makes the
project-collection loop panic (the strip `unwrap`), and a project summary
that is stored comes from an entry with that exact prefix, tag-stripped,
with `bug_count` zero and severity equal to the issue's rank. -/
theorem collectProjects_panics_without_meta_tag (entries : List (BugId × Bug)) :
    ((∃ e ∈ entries, strContains e.2.summary "[project]" = true ∧
        stripLeading "[meta] [project] " e.2.summary = none) →
      collectProjects entries = .error .stripFailed) ∧
    (∀ l, collectProjects entries = .ok l → ∀ x ∈ l,
      ∃ e ∈ entries, e.1 = x.1 ∧
        e.2.summary.data = ("[meta] [project] ").data ++ x.2.summary.data ∧
        x.2.bug_count = 0 ∧ x.2.severity = e.2.rank) := by
  induction entries with
  | nil =>
    refine ⟨fun h => ?_, fun l hl x hx => ?_⟩
    · simp at h
    · injection hl with hl
      subst hl
      simp at hx
  | cons e rest ih =>
    obtain ⟨id, bug⟩ := e
    by_cases hc : strContains bug.summary "[project]" = true
    · cases hs : stripLeading "[meta] [project] " bug.summary with
      | none =>
        refine ⟨fun _ => ?_, fun l hl x hx => ?_⟩
        · simp [collectProjects, hc, hs]
        · simp [collectProjects, hc, hs] at hl
      | some stripped =>
        constructor
        · intro hex
          rcases hex with ⟨e', he', htag, hstrip⟩
          rcases List.mem_cons.mp he' with rfl | hmem
          · rw [hs] at hstrip
            exact absurd hstrip (by simp)
          · have hrest := ih.1 ⟨e', hmem, htag, hstrip⟩
            simp [collectProjects, hc, hs, hrest]
        · intro l hl x hx
          simp only [collectProjects, hc, if_pos, hs] at hl
          cases hrec : collectProjects rest with
          | error e2 => rw [hrec] at hl; exact absurd hl (by simp)
          | ok l2 =>
            rw [hrec] at hl
            injection hl with hl
            subst hl
            rcases List.mem_cons.mp hx with rfl | hmem
            · exact ⟨(id, bug), List.mem_cons_self _ _, rfl, stripLeading_eq hs, rfl, rfl⟩
            · obtain ⟨e', he', h1, h2, h3, h4⟩ := ih.2 l2 hrec x hmem
              exact ⟨e', List.mem_cons_of_mem _ he', h1, h2, h3, h4⟩
    · constructor
      · intro hex
        rcases hex with ⟨e', he', htag, hstrip⟩
        rcases List.mem_cons.mp he' with rfl | hmem
        · exact absurd htag hc
        · have hrest := ih.1 ⟨e', hmem, htag, hstrip⟩
          simpa [collectProjects, hc] using hrest
      · intro l hl x hx
        simp only [collectProjects, hc] at hl
        obtain ⟨e', he', h1, h2, h3, h4⟩ := ih.2 l (by simpa using hl) x hx
        exact ⟨e', List.mem_cons_of_mem _ he', h1, h2, h3, h4⟩

/-- Witness for C10: the fixture entry "[project] Foo" carries the tag
without the exact prefix and the collection step errors on it. -/
theorem collectProjects_witness :
    (∃ e ∈ strayTagEntries, strContains e.2.summary "[project]" = true ∧
        stripLeading "[meta] [project] " e.2.summary = none) ∧
    collectProjects strayTagEntries = .error .stripFailed :=
  ⟨by decide, (collectProjects_panics_without_meta_tag strayTagEntries).1 (by decide)⟩

lemma blocksList_true_reaches {g : BugList} :
    ∀ fuel l, blocksList fuel g l = some true → ∃ x ∈ l, Reaches g x := by
  intro fuel
  induction fuel with
  | zero => intro l h; exact absurd h (by simp [blocksList])
  | succ f ih =>
    intro l h
    match l with
    | [] => exact absurd h (by simp [blocksList])
    | id :: rest =>
      rw [blocksList] at h
      by_cases hr : id = g.root_project_id
      · exact ⟨id, List.mem_cons_self _ _, hr ▸ Reaches.root⟩
      · rw [if_neg hr] at h
        cases hm : mapGet g.bugs id with
        | none =>
          simp only [hm] at h
          obtain ⟨x, hx, hre⟩ := ih rest h
          exact ⟨x, List.mem_cons_of_mem _ hx, hre⟩
        | some bug =>
          simp only [hm] at h
          cases hi : blocksList f g bug.blocks with
          | none => simp [hi] at h
          | some b =>
            cases b with
            | true =>
              obtain ⟨t, ht, hre⟩ := ih bug.blocks hi
              exact ⟨id, List.mem_cons_self _ _, Reaches.step hm ht hre⟩
            | false =>
              simp only [hi] at h
              obtain ⟨x, hx, hre⟩ := ih rest h
              exact ⟨x, List.mem_cons_of_mem _ hx, hre⟩

lemma blocksList_false_not_reaches {g : BugList} :
    ∀ fuel l, blocksList fuel g l = some false → ∀ x ∈ l, ¬ Reaches g x := by
  intro fuel
  induction fuel with
  | zero => intro l h; exact absurd h (by simp [blocksList])
  | succ f ih =>
    intro l h
    match l with
    | [] => intro x hx; exact absurd hx (by simp)
    | id :: rest =>
      rw [blocksList] at h
      by_cases hr : id = g.root_project_id
      · rw [if_pos hr] at h
        exact absurd h (by simp)
      · rw [if_neg hr] at h
        intro x hx
        cases hm : mapGet g.bugs id with
        | none =>
          simp only [hm] at h
          rcases List.mem_cons.mp hx with rfl | hmem
          · intro hre
            cases hre with
            | root => exact hr rfl
            | step hm2 ht hre2 => rw [hm2] at hm; exact absurd hm (by simp)
          · exact ih rest h x hmem
        | some bug =>
          simp only [hm] at h
          cases hi : blocksList f g bug.blocks with
          | none => simp [hi] at h
          | some b =>
            cases b with
            | true => simp [hi] at h
            | false =>
              simp only [hi] at h
              rcases List.mem_cons.mp hx with rfl | hmem
              · intro hre
                cases hre with
                | root => exact hr rfl
                | step hm2 ht hre2 =>
                  rw [hm] at hm2
                  injection hm2 with hm2
                  subst hm2
                  exact ih bug.blocks hi _ ht hre2
              · exact ih rest h x hmem

lemma edgePerm_symm {g1 g2 : BugList} (h : EdgePerm g1 g2) : EdgePerm g2 g1 := by
  obtain ⟨hroot, hnone, hsome⟩ := h
  refine ⟨hroot.symm, fun id => (hnone id).symm, fun id b2 b1 h2 h1 => ?_⟩
  obtain ⟨hs, hr, hp⟩ := hsome id b1 b2 h1 h2
  exact ⟨hs.symm, hr.symm, hp.symm⟩

lemma edgePerm_reaches {g1 g2 : BugList} (h : EdgePerm g1 g2) {x : BugId}
    (hre : Reaches g1 x) : Reaches g2 x := by
  obtain ⟨hroot, hnone, hsome⟩ := h
  induction hre with
  | root => exact hroot ▸ Reaches.root
  | @step id t bug hm ht _ ih =>
    cases hm2 : mapGet g2.bugs id with
    | none => rw [(hnone id).mpr hm2] at hm; exact absurd hm (by simp)
    | some bug2 =>
      obtain ⟨_, _, hp⟩ := hsome id bug bug2 hm hm2
      exact Reaches.step hm2 (hp.mem_iff.mp ht) ih

/-- C9 (amended): whenever the reachability test returns a boolean on a graph
and on any reordering of its issues' blocks lists — at whatever recursion
depths — the two booleans are equal.  (As stated the claim fails: reordering
can turn a terminating call into a non-terminating one, see the
counterexample.) -/
theorem blocks_wr_projects_order_invariant (g1 g2 : BugList) (x : BugId)
    (f1 f2 : Nat) (b1 b2 : Bool) (hp : EdgePerm g1 g2)
    (h1 : blocks_wr_projects f1 g1 x = some b1)
    (h2 : blocks_wr_projects f2 g2 x = some b2) : b1 = b2 := by
  cases b1 with
  | true =>
    cases b2 with
    | true => rfl
    | false =>
      obtain ⟨y, hy, hre⟩ := blocksList_true_reaches f1 [x] h1
      rw [List.mem_singleton] at hy
      subst hy
      exact absurd (edgePerm_reaches hp hre)
        (blocksList_false_not_reaches f2 [y] h2 y (by simp))
  | false =>
    cases b2 with
    | false => rfl
    | true =>
      obtain ⟨y, hy, hre⟩ := blocksList_true_reaches f2 [x] h2
      rw [List.mem_singleton] at hy
      subst hy
      exact absurd (edgePerm_reaches (edgePerm_symm hp) hre)
        (blocksList_false_not_reaches f1 [y] h1 y (by simp))

lemma edgePerm_emptyGraph : EdgePerm emptyGraph emptyGraph :=
  ⟨rfl, fun _ => Iff.rfl, fun id b1 b2 h1 _ => by simp [mapGet, emptyGraph] at h1⟩

/-- Witness for C9's amended theorem: on the empty graph (trivially an edge
permutation of itself) the test returns true for the root at both depths,
and the booleans agree. -/
theorem blocks_order_invariant_witness :
    EdgePerm emptyGraph emptyGraph ∧
    blocks_wr_projects 1 emptyGraph 0 = some true ∧
    blocks_wr_projects 3 emptyGraph 0 = some true ∧ true = true :=
  ⟨edgePerm_emptyGraph, rfl, rfl,
    blocks_wr_projects_order_invariant emptyGraph emptyGraph 0 1 3 true true
      edgePerm_emptyGraph rfl rfl⟩

lemma permGraphB_cycle_none : ∀ fuel,
    blocksList fuel permGraphB [2] = none ∧
    blocksList fuel permGraphB [2, 0] = none := by
  intro fuel
  induction fuel with
  | zero => exact ⟨rfl, rfl⟩
  | succ f ih =>
    obtain ⟨ih1, ih2⟩ := ih
    simp only [permGraphB] at ih1
    constructor
    · show blocksList (f + 1) permGraphB [2] = none
      simp [blocksList, permGraphB, mapGet, ih1]
    · show blocksList (f + 1) permGraphB [2, 0] = none
      simp [blocksList, permGraphB, mapGet, ih1]

lemma permGraphB_diverges : blocksDiverges permGraphB 1 := by
  intro fuel
  cases fuel with
  | zero => rfl
  | succ f =>
    show blocksList (f + 1) permGraphB [1] = none
    have h2 := (permGraphB_cycle_none f).2
    simp only [permGraphB] at h2
    simp [blocksList, permGraphB, mapGet, h2]

/-- Counterexample to C9 as stated: `permGraphB` permutes only issue 1's
blocks list of `permGraphA`; on `permGraphA` the test at issue 1 returns
true (the root edge is tried first), while on `permGraphB` it returns no
boolean at any recursion depth (the self-loop at issue 2 is explored first
and the source recursion never ends), so the returned boolean is not
independent of edge order. -/
theorem blocks_order_not_preserved_counterexample :
    EdgePerm permGraphA permGraphB ∧
    blocks_wr_projects 2 permGraphA 1 = some true ∧
    blocksDiverges permGraphB 1 := by
  refine ⟨⟨rfl, ?_, ?_⟩, rfl, permGraphB_diverges⟩
  · intro id
    by_cases h1 : id = 1
    · simp [mapGet, permGraphA, permGraphB, h1]
    · by_cases h2 : id = 2 <;> simp [mapGet, permGraphA, permGraphB, h1, h2]
  · intro id b1 b2 hb1 hb2
    by_cases h1 : id = 1
    · subst h1
      simp only [mapGet, permGraphA, permGraphB] at hb1 hb2
      norm_num at hb1 hb2
      subst hb1; subst hb2
      refine ⟨rfl, rfl, ?_⟩
      decide
    · by_cases h2 : id = 2
      · subst h2
        simp only [mapGet, permGraphA, permGraphB] at hb1 hb2
        norm_num at hb1 hb2
        subst hb1; subst hb2
        exact ⟨rfl, rfl, List.Perm.refl _⟩
      · simp [mapGet, permGraphA, permGraphB, h1, h2] at hb1

lemma map_fst_filter (l : List (BugId × Bug)) (pred : BugId → Bool) :
    (l.filter (fun e => pred e.1)).map Prod.fst = (l.map Prod.fst).filter pred := by
  induction l with
  | nil => rfl
  | cons e rest ih => by_cases h : pred e.1 <;> simp [h, ih]

lemma classifyBugs_eq (f : Nat) (g : BugList) :
    ∀ entries p u, classifyBugs f g entries = some (p, u) →
      p = (entries.map Prod.fst).filter
            (fun id => decide (blocks_wr_projects f g id = some true)) ∧
      u = (entries.filter
            (fun e => decide (blocks_wr_projects f g e.1 = some false))).map
            (fun e => mkBugInfo e.1 e.2) ∧
      ∀ e ∈ entries, (blocks_wr_projects f g e.1).isSome = true := by
  intro entries
  induction entries with
  | nil =>
    intro p u h
    simp only [classifyBugs, Option.some.injEq] at h
    obtain ⟨rfl, rfl⟩ := Prod.mk.injEq .. |>.mp h.symm
    simp
  | cons e rest ih =>
    intro p u h
    obtain ⟨id, bug⟩ := e
    cases hb : blocks_wr_projects f g id with
    | none => simp [classifyBugs, hb] at h
    | some b =>
      simp only [classifyBugs, hb] at h
      cases hrec : classifyBugs f g rest with
      | none => cases b <;> simp [hrec] at h
      | some pu =>
        obtain ⟨p', u'⟩ := pu
        obtain ⟨hp', hu', hsome⟩ := ih p' u' hrec
        cases b with
        | true =>
          simp only [hrec, Option.some.injEq] at h
          obtain ⟨rfl, rfl⟩ := Prod.mk.injEq .. |>.mp h.symm
          refine ⟨?_, ?_, ?_⟩
          · simp [hb, hp']
          · simp [hb, hu']
          · intro e he
            rcases List.mem_cons.mp he with rfl | hmem
            · simp [hb]
            · exact hsome e hmem
        | false =>
          simp only [hrec, Option.some.injEq] at h
          obtain ⟨rfl, rfl⟩ := Prod.mk.injEq .. |>.mp h.symm
          refine ⟨?_, ?_, ?_⟩
          · simp [hb, hp']
          · simp [hb, hu']
          · intro e he
            rcases List.mem_cons.mp he with rfl | hmem
            · simp [hb]
            · exact hsome e hmem

/-- C3: when the classification loop of `main` finishes (every reachability
test returns), each issue id of the graph lands in exactly one side of the
partition — in the propagation list exactly when its test returned true, in
the unreachable list exactly when it returned false, each side without
duplicates — and the root issue itself lands in the propagation list. -/
theorem classifyBugs_partition (f : Nat) (g : BugList)
    (p : List BugId) (u : List BugInfo)
    (hnd : (g.bugs.map Prod.fst).Nodup)
    (hc : classifyBugs f g g.bugs = some (p, u)) :
    (∀ id, id ∈ p ↔ id ∈ g.bugs.map Prod.fst ∧
        blocks_wr_projects f g id = some true) ∧
    (∀ id, id ∈ u.map BugInfo.id ↔ id ∈ g.bugs.map Prod.fst ∧
        blocks_wr_projects f g id = some false) ∧
    p.Nodup ∧ (u.map BugInfo.id).Nodup ∧
    (g.root_project_id ∈ g.bugs.map Prod.fst → g.root_project_id ∈ p) := by
  obtain ⟨hp, hu, hsome⟩ := classifyBugs_eq f g g.bugs p u hc
  have huid : u.map BugInfo.id = (g.bugs.map Prod.fst).filter
      (fun id => decide (blocks_wr_projects f g id = some false)) := by
    rw [hu, List.map_map]
    have : (BugInfo.id ∘ fun e : BugId × Bug => mkBugInfo e.1 e.2) =
        Prod.fst := rfl
    rw [this]
    exact map_fst_filter g.bugs (fun id => decide (blocks_wr_projects f g id = some false))
  have hmem_p : ∀ id, id ∈ p ↔ id ∈ g.bugs.map Prod.fst ∧
      blocks_wr_projects f g id = some true := by
    intro id
    rw [hp, List.mem_filter, decide_eq_true_iff]
  have hmem_u : ∀ id, id ∈ u.map BugInfo.id ↔ id ∈ g.bugs.map Prod.fst ∧
      blocks_wr_projects f g id = some false := by
    intro id
    rw [huid, List.mem_filter, decide_eq_true_iff]
  refine ⟨hmem_p, hmem_u, hp ▸ hnd.filter _, huid ▸ hnd.filter _, fun hroot => ?_⟩
  obtain ⟨e, he, heq⟩ := List.mem_map.mp hroot
  cases f with
  | zero =>
    have := hsome e he
    simp [blocks_wr_projects, blocksList] at this
  | succ f0 =>
    exact (hmem_p _).mpr ⟨hroot, heq ▸ blocksList_root_cons g f0 []⟩

/-- Witness for C3 on the spec's scenario graph: the loop classifies issues
1, 2, 4 as reachable, issue 3 as unreachable, and the root 1 is fed to the
propagation pass. -/
theorem classifyBugs_partition_witness :
    (scenarioGraph.bugs.map Prod.fst).Nodup ∧
    classifyBugs 10 scenarioGraph scenarioGraph.bugs =
      some ([1, 2, 4], [mkBugInfo 3 ⟨"t", [99], -1⟩]) ∧
    scenarioGraph.root_project_id ∈ ([1, 2, 4] : List BugId) :=
  ⟨by decide, rfl,
    (classifyBugs_partition 10 scenarioGraph [1, 2, 4]
      [mkBugInfo 3 ⟨"t", [99], -1⟩] (by decide) rfl).2.2.2.2 (by decide)⟩

/-- The weight a pending root contributes to the number of root-alias
records already seen. -/
def rootWeight : Option BugId → Nat
  | none => 0
  | some _ => 1

/-- The map update one record performs once its rank is known (the `getD`
default is never used on a record whose rank parses). -/
def insStep (m : List (BugId × Bug)) (r : BugResponse) : List (BugId × Bug) :=
  mapInsert m r.id (mkBug r ((rankOf r).getD 0))

lemma countRoot_cons (r : BugResponse) (rest : List BugResponse) :
    countRoot (r :: rest) = (if isRoot r then 1 else 0) + countRoot rest := by
  by_cases h : isRoot r
  · simp [countRoot, List.filter_cons, h]
    omega
  · simp [countRoot, List.filter_cons, h]

lemma newAux_root_spec :
    ∀ (rs : List BugResponse) (acc : List (BugId × Bug)) (root? : Option BugId),
      (∀ r ∈ rs, (rankOf r).isSome = true) →
      (countRoot rs + rootWeight root? = 0 →
        newAux rs acc root? = .error .missingRoot) ∧
      (2 ≤ countRoot rs + rootWeight root? →
        newAux rs acc root? = .error .duplicateRoot) ∧
      (countRoot rs + rootWeight root? = 1 →
        ∃ g, newAux rs acc root? = .ok g ∧
          ((∃ rid, root? = some rid ∧ g.root_project_id = rid) ∨
           (∃ r ∈ rs, isRoot r = true ∧ g.root_project_id = r.id))) := by
  intro rs
  induction rs with
  | nil =>
    intro acc root? _
    cases root? with
    | none =>
      refine ⟨fun _ => rfl, fun h => ?_, fun h => ?_⟩
      · simp [countRoot, rootWeight] at h
      · simp [countRoot, rootWeight] at h
    | some rid =>
      refine ⟨fun h => ?_, fun h => ?_, fun _ => ?_⟩
      · simp [countRoot, rootWeight] at h
      · simp [countRoot, rootWeight] at h
      · exact ⟨⟨acc, rid⟩, rfl, Or.inl ⟨rid, rfl, rfl⟩⟩
  | cons r rest ih =>
    intro acc root? hranks
    have hrt : (rankOf r).isSome = true := hranks r (List.mem_cons_self ..)
    have htail : ∀ r' ∈ rest, (rankOf r').isSome = true :=
      fun r' h' => hranks r' (List.mem_cons_of_mem _ h')
    obtain ⟨rk, hrk⟩ := Option.isSome_iff_exists.mp hrt
    by_cases hir : isRoot r
    · cases root? with
      | some rid =>
        have hcount : 2 ≤ countRoot (r :: rest) + rootWeight (some rid) := by
          rw [countRoot_cons]
          simp [hir, rootWeight]
        refine ⟨fun h => ?_, fun _ => ?_, fun h => ?_⟩
        · omega
        · simp [newAux, hir]
        · omega
      | none =>
        have heq : newAux (r :: rest) acc none =
            newAux rest (mapInsert acc r.id (mkBug r rk)) (some r.id) := by
          simp [newAux, hir, hrk]
        have hcnt : countRoot (r :: rest) + rootWeight (none : Option BugId) =
            countRoot rest + rootWeight (some r.id) := by
          rw [countRoot_cons]
          simp [hir, rootWeight]
          omega
        obtain ⟨ih0, ih2, ih1⟩ :=
          ih (mapInsert acc r.id (mkBug r rk)) (some r.id) htail
        refine ⟨fun h => ?_, fun h => ?_, fun h => ?_⟩
        · rw [hcnt] at h
          rw [heq]
          exact ih0 h
        · rw [hcnt] at h
          rw [heq]
          exact ih2 h
        · rw [hcnt] at h
          obtain ⟨g, hok, hdis⟩ := ih1 h
          refine ⟨g, heq ▸ hok, Or.inr ?_⟩
          rcases hdis with ⟨rid, hrid, hgr⟩ | ⟨r', hr', hir', hgr⟩
          · injection hrid with hrid
            exact ⟨r, List.mem_cons_self .., hir, hgr.trans hrid.symm⟩
          · exact ⟨r', List.mem_cons_of_mem _ hr', hir', hgr⟩
    · have heq : newAux (r :: rest) acc root? =
          newAux rest (mapInsert acc r.id (mkBug r rk)) root? := by
        simp [newAux, hir, hrk]
      have hcnt : countRoot (r :: rest) = countRoot rest := by
        rw [countRoot_cons]
        simp [hir]
      obtain ⟨ih0, ih2, ih1⟩ := ih (mapInsert acc r.id (mkBug r rk)) root? htail
      refine ⟨fun h => ?_, fun h => ?_, fun h => ?_⟩
      · rw [hcnt] at h
        rw [heq]
        exact ih0 h
      · rw [hcnt] at h
        rw [heq]
        exact ih2 h
      · rw [hcnt] at h
        obtain ⟨g, hok, hdis⟩ := ih1 h
        refine ⟨g, heq ▸ hok, ?_⟩
        rcases hdis with hl | ⟨r', hr', hir', hgr⟩
        · exact Or.inl hl
        · exact Or.inr ⟨r', List.mem_cons_of_mem _ hr', hir', hgr⟩

/-- C6 (amended): provided every present rank field parses, construction
fails before any traversal with a configuration error exactly when the
number of root-alias records differs from one — missing root on zero,
duplicate root on two or more — and with exactly one such record it
succeeds with that record's id as root.  (As stated the claim fails: with
exactly one root-alias record whose rank does not parse, construction fails
instead of succeeding, see the counterexample.) -/
theorem new_root_detection (rs : List BugResponse)
    (hranks : ∀ r ∈ rs, (rankOf r).isSome = true) :
    (countRoot rs = 0 → BugList.new rs = .error .missingRoot) ∧
    (2 ≤ countRoot rs → BugList.new rs = .error .duplicateRoot) ∧
    (countRoot rs = 1 → ∃ g, BugList.new rs = .ok g ∧
      ∃ r ∈ rs, isRoot r = true ∧ g.root_project_id = r.id) := by
  obtain ⟨h0, h2, h1⟩ := newAux_root_spec rs [] none hranks
  refine ⟨fun h => h0 (by simp [rootWeight, h]),
    fun h => h2 (by simp [rootWeight]; omega), fun h => ?_⟩
  obtain ⟨g, hok, hdis⟩ := h1 (by simp [rootWeight, h])
  rcases hdis with ⟨rid, hrid, _⟩ | hr
  · exact absurd hrid (by simp)
  · exact ⟨g, hok, hr⟩

/-- Counterexample to C6 as stated: exactly one record carries the root
alias, yet construction fails (its rank field "x" does not parse), so
"exactly one root-alias record implies success" is false. -/
theorem new_one_root_can_fail_counterexample :
    countRoot oneRootBadRank = 1 ∧
    BugList.new oneRootBadRank = .error .invalidRank := ⟨rfl, rfl⟩

/-- Witness for C6's amended theorem on a well-formed two-record input:
exactly one root-alias record, construction succeeds, and the root id is
that record's id. -/
theorem new_root_detection_witness :
    (∀ r ∈ goodRecords, (rankOf r).isSome = true) ∧
    countRoot goodRecords = 1 ∧
    (∃ g, BugList.new goodRecords = .ok g ∧
      ∃ r ∈ goodRecords, isRoot r = true ∧ g.root_project_id = r.id) :=
  ⟨by decide, by decide,
    (new_root_detection goodRecords (by decide)).2.2 (by decide)⟩

lemma newAux_ok_spec :
    ∀ (rs : List BugResponse) (acc : List (BugId × Bug)) (root? : Option BugId)
      (g : BugList), newAux rs acc root? = .ok g →
      (∀ r ∈ rs, (rankOf r).isSome = true) ∧ g.bugs = rs.foldl insStep acc := by
  intro rs
  induction rs with
  | nil =>
    intro acc root? g h
    cases root? with
    | none => exact absurd h (by simp [newAux])
    | some rid =>
      refine ⟨by simp, ?_⟩
      simp only [newAux, Except.ok.injEq] at h
      rw [← h]
      rfl
  | cons r rest ih =>
    intro acc root? g h
    by_cases hir : isRoot r
    · cases root? with
      | some rid => simp [newAux, hir] at h
      | none =>
        cases hrk : rankOf r with
        | none => simp [newAux, hir, hrk] at h
        | some rk =>
          have heq : newAux (r :: rest) acc none =
              newAux rest (mapInsert acc r.id (mkBug r rk)) (some r.id) := by
            simp [newAux, hir, hrk]
          rw [heq] at h
          obtain ⟨hall, hbugs⟩ := ih _ _ g h
          refine ⟨?_, ?_⟩
          · intro r' hr'
            rcases List.mem_cons.mp hr' with rfl | hmem
            · simp [hrk]
            · exact hall r' hmem
          · simpa [List.foldl_cons, insStep, hrk] using hbugs
    · cases hrk : rankOf r with
      | none => simp [newAux, hir, hrk] at h
      | some rk =>
        have heq : newAux (r :: rest) acc root? =
            newAux rest (mapInsert acc r.id (mkBug r rk)) root? := by
          simp [newAux, hir, hrk]
        rw [heq] at h
        obtain ⟨hall, hbugs⟩ := ih _ _ g h
        refine ⟨?_, ?_⟩
        · intro r' hr'
          rcases List.mem_cons.mp hr' with rfl | hmem
          · simp [hrk]
          · exact hall r' hmem
        · simpa [List.foldl_cons, insStep, hrk] using hbugs

lemma mapGet_insert_self {α : Type} (m : List (BugId × α)) (k : BugId) (v : α) :
    mapGet (mapInsert m k v) k = some v := by
  induction m with
  | nil => simp [mapInsert, mapGet]
  | cons e rest ih =>
    obtain ⟨a, b⟩ := e
    by_cases h : k = a
    · simp [mapInsert, mapGet, h]
    · simp [mapInsert, mapGet, h, ih]

lemma mapGet_insert_ne {α : Type} (m : List (BugId × α)) (k' k : BugId) (v : α)
    (h : k ≠ k') : mapGet (mapInsert m k' v) k = mapGet m k := by
  induction m with
  | nil => simp [mapInsert, mapGet, h]
  | cons e rest ih =>
    obtain ⟨a, b⟩ := e
    by_cases h2 : k' = a
    · subst h2
      simp [mapInsert, mapGet, h]
    · by_cases h3 : k = a <;> simp [mapInsert, mapGet, h2, h3, ih]

lemma foldl_insStep_absent :
    ∀ (rs : List BugResponse) (m : List (BugId × Bug)) (k : BugId),
      (∀ r ∈ rs, r.id ≠ k) → mapGet (rs.foldl insStep m) k = mapGet m k := by
  intro rs
  induction rs with
  | nil => intro m k _; rfl
  | cons r rest ih =>
    intro m k h
    rw [List.foldl_cons, ih _ k (fun r' h' => h r' (List.mem_cons_of_mem _ h'))]
    exact mapGet_insert_ne m r.id k _ (Ne.symm (h r (List.mem_cons_self ..)))

lemma foldl_insStep_mem :
    ∀ (rs : List BugResponse) (m : List (BugId × Bug)) (r : BugResponse),
      r ∈ rs → (rs.map BugResponse.id).Nodup →
      mapGet (rs.foldl insStep m) r.id = some (mkBug r ((rankOf r).getD 0)) := by
  intro rs
  induction rs with
  | nil =>
    intro m r h _
    exact absurd h (by simp)
  | cons a rest ih =>
    intro m r hmem hnd
    rw [List.map_cons] at hnd
    obtain ⟨hna, hndr⟩ := List.nodup_cons.mp hnd
    rw [List.foldl_cons]
    rcases List.mem_cons.mp hmem with rfl | hr
    · rw [foldl_insStep_absent rest _ r.id ?_]
      · exact mapGet_insert_self m r.id _
      · intro r' h' heq
        exact hna (heq ▸ List.mem_map_of_mem BugResponse.id h')
    · exact ih _ r hr hndr

lemma newAux_badRank :
    ∀ (rs : List BugResponse) (acc : List (BugId × Bug)) (root? : Option BugId),
      countRoot rs + rootWeight root? ≤ 1 → (∃ r ∈ rs, rankOf r = none) →
      newAux rs acc root? = .error .invalidRank := by
  intro rs
  induction rs with
  | nil =>
    intro acc root? _ hex
    simp at hex
  | cons r rest ih =>
    intro acc root? hc hex
    rw [countRoot_cons] at hc
    by_cases hir : isRoot r
    · cases root? with
      | some rid =>
        simp only [hir, if_true, rootWeight] at hc
        omega
      | none =>
        cases hrk : rankOf r with
        | none => simp [newAux, hir, hrk]
        | some rk =>
          have heq : newAux (r :: rest) acc none =
              newAux rest (mapInsert acc r.id (mkBug r rk)) (some r.id) := by
            simp [newAux, hir, hrk]
          rw [heq]
          apply ih
          · simp only [hir, if_true, rootWeight] at hc ⊢
            omega
          · rcases hex with ⟨r', hr', hnone⟩
            rcases List.mem_cons.mp hr' with rfl | hmem
            · rw [hrk] at hnone
              exact absurd hnone (by simp)
            · exact ⟨r', hmem, hnone⟩
    · cases hrk : rankOf r with
      | none => simp [newAux, hir, hrk]
      | some rk =>
        have heq : newAux (r :: rest) acc root? =
            newAux rest (mapInsert acc r.id (mkBug r rk)) root? := by
          simp [newAux, hir, hrk]
        rw [heq]
        apply ih
        · simp only [hir, if_false, Bool.false_eq_true] at hc
          omega
        · rcases hex with ⟨r', hr', hnone⟩
          rcases List.mem_cons.mp hr' with rfl | hmem
          · rw [hrk] at hnone
            exact absurd hnone (by simp)
          · exact ⟨r', hmem, hnone⟩

/-- C7: a record with no rank field yields an issue of rank -1; a record
whose rank field does not parse as an integer makes construction fail (with
the invalid-rank panic whenever no duplicate-root assertion fires first,
which the root-alias count bounds); a record whose rank field parses yields
an issue with the parsed rank. -/
theorem new_rank_handling (rs : List BugResponse) :
    (∀ r ∈ rs, ∀ s, r.cf_rank = some s → parseI32 s = none →
      ∀ g, BugList.new rs ≠ .ok g) ∧
    (countRoot rs ≤ 1 → (∃ r ∈ rs, rankOf r = none) →
      BugList.new rs = .error .invalidRank) ∧
    (∀ g, BugList.new rs = .ok g → (rs.map BugResponse.id).Nodup →
      ∀ r ∈ rs, ∃ bug, mapGet g.bugs r.id = some bug ∧
        (r.cf_rank = none → bug.rank = -1) ∧
        (∀ s v, r.cf_rank = some s → parseI32 s = some v → bug.rank = v)) := by
  refine ⟨?_, ?_, ?_⟩
  · intro r hr s hs hp g hok
    have hsome := (newAux_ok_spec rs [] none g hok).1 r hr
    simp [rankOf, hs, hp] at hsome
  · intro hc hex
    exact newAux_badRank rs [] none (by simpa [rootWeight] using hc) hex
  · intro g hok hnd r hr
    obtain ⟨hall, hbugs⟩ := newAux_ok_spec rs [] none g hok
    refine ⟨mkBug r ((rankOf r).getD 0), ?_, ?_, ?_⟩
    · rw [hbugs]
      exact foldl_insStep_mem rs [] r hr hnd
    · intro hnone
      simp [mkBug, rankOf, hnone]
    · intro s v hs hv
      simp [mkBug, rankOf, hs, hv]

/-- Witness for C7: the fixture record's rank field "zz" does not parse and
construction fails with the invalid-rank panic. -/
theorem new_rank_handling_witness :
    countRoot badRankRecords ≤ 1 ∧ (∃ r ∈ badRankRecords, rankOf r = none) ∧
    BugList.new badRankRecords = .error .invalidRank :=
  ⟨by decide, by decide,
    (new_rank_handling badRankRecords).2.1 (by decide) (by decide)⟩

end FetchBugs
